import Mathlib

/-!
The script `frontend/script.js` of divipdf.

A shallow embedding of the navigation binder of `src/divipdf/frontend/script.js`
(the `DOMContentLoaded` handler) and theorems about it.

Modelling decisions.

* JavaScript strings are modelled by Lean `String`s (sequences of Unicode scalar values).
  Every character that `String.prototype.trim` removes lies in the Basic Multilingual Plane,
  and `===` on strings is equality of the code-unit sequences, so trimming and comparison
  commute with the UTF-16 encoding.
* `document.querySelectorAll("ul li")` is the list `Document.items`, in document order.  An
  element is identified by its position in that list; a closure that captured `item` is a
  `Listener` value that records the position of the captured element.
* The selector `"ul li"` also selects an `li` nested in another `li`.  Each element records
  its ancestors among the candidates, nearest first (`Element.ancestors`); in a real page the
  text content of an element is a contiguous part of the text content of each ancestor
  (`Document.WellNested`).
* `window.location.href = p` is recorded twice: in `Document.href` (the navigation target) and
  in the trace `Document.assignments` (every assignment, oldest first).
* The script registers its listeners without the capture flag and never stops propagation,
  and `click`, `mouseover` and `mouseout` bubble.  `invokeListeners` runs, in registration
  order, the listeners of one element for one event type; `dispatchEvent` delivers an event
  to its target and then to each ancestor among the candidates, from the nearest outwards.
-/

namespace Divipdf

/-! ## The lookup table (script.js, lines 4-19) -/

/-- One object literal `{ name: ..., path: ... }`. -/
structure Tool where
  name : String
  path : String
  deriving DecidableEq, Repr

/-- The array `pdfTools` (script.js, lines 4-9). -/
def pdfTools : List Tool :=
  [ { name := "PDF to Word", path := "../pdf-tools/pdf-to-word/index.html" },
    { name := "Word to PDF", path := "../pdf-tools/word-to-pdf/index.html" },
    { name := "Merge PDF", path := "../pdf-tools/merge-pdf/index.html" },
    { name := "Compress PDF", path := "../pdf-tools/compress-pdf/index.html" } ]

/-- The array `imageTools` (script.js, lines 10-17). -/
def imageTools : List Tool :=
  [ { name := "Image Compress (JPG/PNG/WEBP)", path := "../image-tools/compress/index.html" },
    { name := "Image Resize (Custom Dimension)", path := "../image-tools/resize/index.html" },
    { name := "Image to PDF", path := "../image-tools/to-pdf/index.html" },
    { name := "Convert Image Format (JPEG-PNG-WEBP)",
      path := "../image-tools/convert-format/index.html" },
    { name := "Remove Background", path := "../image-tools/remove-bg/index.html" },
    { name := "Watermark Remover", path := "../image-tools/remove-watermark/index.html" } ]

/-- The array `allTools = [...pdfTools, ...imageTools]` (script.js, line 19). -/
def allTools : List Tool := pdfTools ++ imageTools

/-! ## `String.prototype.trim` -/

/-- The code points that `String.prototype.trim` strips: ECMAScript `WhiteSpace`
(TAB, VT, FF, ZWNBSP and every code point of category Zs) and `LineTerminator`
(LF, CR, LS, PS). -/
def isWhiteSpace (c : Char) : Bool :=
  let n := c.toNat
  n == 0x0009 || n == 0x000A || n == 0x000B || n == 0x000C || n == 0x000D ||
  n == 0x0020 || n == 0x00A0 || n == 0x1680 || (0x2000 ≤ n && n ≤ 0x200A) ||
  n == 0x2028 || n == 0x2029 || n == 0x202F || n == 0x205F || n == 0x3000 || n == 0xFEFF

/-- Strip the leading white space of a character list. -/
def trimStart (cs : List Char) : List Char := cs.dropWhile isWhiteSpace

/-- Strip the trailing white space of a character list. -/
def trimEnd (cs : List Char) : List Char := (cs.reverse.dropWhile isWhiteSpace).reverse

/-- The method `String.prototype.trim`: strip white space at both ends. -/
def trim (s : String) : String := String.mk (trimEnd (trimStart s.data))

/-- The expression `tools.find(tool => textContent.trim() === tool.name)`
(script.js, line 23, with the table as a parameter). -/
def findTool (tools : List Tool) (textContent : String) : Option Tool :=
  tools.find? (fun tool => trim textContent == tool.name)

/-! ## The page: elements, styles, listeners -/

/-- The inline style properties the script writes (`item.style.cursor`,
`item.style.transform`, `item.style.transition`). -/
structure Style where
  cursor : String
  transform : String
  transition : String
  deriving DecidableEq, Repr

/-- The event types the script listens to. -/
inductive EventType where
  | click
  | mouseover
  | mouseout
  deriving DecidableEq, Repr

/-- The three arrow functions the script registers, each with what it captured:
`navigate path` is `() => { window.location.href = match.path }` (lines 26-28),
`hoverEnter item` is the `mouseover` closure (lines 32-35) and `hoverExit item` the
`mouseout` closure (lines 36-38); `item` is the position of the captured element. -/
inductive Listener where
  | navigate (path : String)
  | hoverEnter (item : Nat)
  | hoverExit (item : Nat)
  deriving DecidableEq, Repr

/-- An `li` element selected by `"ul li"`: its text content, its inline style, the
listeners registered on it, oldest first, and the positions of the candidate elements among
its ancestors, nearest first. -/
structure Element where
  textContent : String
  style : Style
  listeners : List (EventType × Listener)
  ancestors : List Nat
  deriving DecidableEq, Repr

/-- The state the script reads and writes: the candidate elements in document order,
`window.location.href`, and the trace of every assignment to it. -/
structure Document where
  items : List Element
  href : String
  assignments : List String
  deriving DecidableEq, Repr

/-- The method `item.addEventListener(type, listener)`.  Every evaluation of an arrow
function yields a fresh function object, so the duplicate check of the DOM never
discards a registration made by the script: the listener is appended. -/
def Element.addEventListener (item : Element) (type : EventType) (listener : Listener) :
    Element :=
  { item with listeners := item.listeners ++ [(type, listener)] }

/-- The listeners registered on an element for one event type, in registration order. -/
def Element.listenersFor (item : Element) (type : EventType) : List Listener :=
  (item.listeners.filter (fun l => l.1 == type)).map (fun l => l.2)

/-- Write the inline style of the element at position `i`. -/
def Document.setStyle (d : Document) (i : Nat) (f : Style → Style) : Document :=
  { d with items := d.items.modify (fun item => { item with style := f item.style }) i }

/-- Run the body of a registered arrow function. -/
def Listener.call : Listener → Document → Document
  | .navigate path, d => { d with href := path, assignments := d.assignments ++ [path] }
  | .hoverEnter item, d =>
      let d1 := d.setStyle item fun st =>
        { st with transition := "transform 0.2s ease, color 0.3s" }
      d1.setStyle item fun st => { st with transform := "scale(1.05)" }
  | .hoverExit item, d => d.setStyle item (fun st => { st with transform := "scale(1)" })

/-! ## The binder (script.js, lines 22-39) -/

/-- The body of the `forEach` callback, run on the element `item` at position `i`. -/
def bindItem (i : Nat) (item : Element) : Element :=
  let item1 :=
    match findTool allTools item.textContent with
    | some m =>
        ({ item with style := { item.style with cursor := "pointer" } }).addEventListener
          .click (.navigate m.path)
    | none => item
  let item2 := item1.addEventListener .mouseover (.hoverEnter i)
  item2.addEventListener .mouseout (.hoverExit i)

/-- The loop `forEach`: run the callback on every element, in order; `i` is the position of
the head of the list. -/
def forEach (f : Nat → Element → Element) : Nat → List Element → List Element
  | _, [] => []
  | i, item :: rest => f i item :: forEach f (i + 1) rest

/-- The `DOMContentLoaded` handler: build the table, scan the candidates and bind. -/
def onDOMContentLoaded (d : Document) : Document :=
  { d with items := forEach bindItem 0 d.items }

/-- Run a list of listeners one after the other, first to last. -/
def callAll (ls : List Listener) (d : Document) : Document :=
  ls.foldl (fun acc l => l.call acc) d

/-- Invoke the listeners of the element at position `x` for events of type `type`: they
run in registration order (one step of the propagation of an event). -/
def invokeListeners (d : Document) (x : Nat) (type : EventType) : Document :=
  match d.items[x]? with
  | none => d
  | some item => callAll (item.listenersFor type) d

/-- Dispatch an event of type `type` with target the element at position `x`: the
listeners of the target run, then the event bubbles and the listeners of each ancestor run,
from the nearest ancestor outwards. -/
def dispatchEvent (d : Document) (x : Nat) (type : EventType) : Document :=
  match d.items[x]? with
  | none => d
  | some item => (x :: item.ancestors).foldl (fun acc y => invokeListeners acc y type) d

/-- A top-level list item no script has touched yet: text `text`, empty inline style, no
listeners, no ancestor among the candidates. -/
def li (text : String) : Element :=
  { textContent := text, style := { cursor := "", transform := "", transition := "" },
    listeners := [], ancestors := [] }

/-- A list item nested in the candidates at positions `ancestors` (nearest first), no script
has touched yet. -/
def nestedLi (text : String) (ancestors : List Nat) : Element :=
  { textContent := text, style := { cursor := "", transform := "", transition := "" },
    listeners := [], ancestors := ancestors }

/-- A freshly parsed page with the given candidate elements, at location `href`. -/
def nestedPage (href : String) (items : List Element) : Document :=
  { items := items, href := href, assignments := [] }

/-- The page `<ul><li>Tools<ul><li>Merge PDF</li><li> Compress PDF </li></ul></li></ul>`. -/
def toolsPage : Document :=
  nestedPage "index.html"
    [li "ToolsMerge PDF Compress PDF ", nestedLi "Merge PDF" [0],
      nestedLi " Compress PDF " [0]]

/-- The page `<ul><li>Tools<ul><li>Random Tool</li></ul></li></ul>`. -/
def randomToolPage : Document :=
  nestedPage "index.html" [li "ToolsRandom Tool", nestedLi "Random Tool" [0]]

/-- The page `<ul><li>Merge PDF<ul><li></li></ul></li></ul>`. -/
def emptyItemPage : Document :=
  nestedPage "index.html" [li "Merge PDF", nestedLi "" [0]]

/-- The page `<ul><li>(newline)<ul><li>Merge PDF</li></ul>(newline)</li></ul>`. -/
def mergeInMergePage : Document :=
  nestedPage "index.html" [li "\n Merge PDF\n", nestedLi "Merge PDF" [0]]

/-- No listener has been registered on any candidate element. -/
def Document.Fresh (d : Document) : Prop :=
  ∀ item ∈ d.items, item.listeners = []

/-- The text content of every candidate element is a contiguous part of the text content of
each of its ancestors. -/
def Document.WellNested (d : Document) : Prop :=
  ∀ item ∈ d.items, ∀ a ∈ item.ancestors, ∀ anc ∈ d.items[a]?,
    item.textContent.data <:+: anc.textContent.data

/-- No ancestor of `item` among the candidates has a text that matches a table entry. -/
def Document.NoMatchedAncestor (d : Document) (item : Element) : Prop :=
  ∀ a ∈ item.ancestors, ∀ anc ∈ d.items[a]?, findTool allTools anc.textContent = none

/-- The listeners registered for events of type `type` on the element at position `y`. -/
def listenersAt (items : List Element) (y : Nat) (type : EventType) : List Listener :=
  match items[y]? with
  | none => []
  | some item => item.listenersFor type

/-- The click listeners the callback registers for a lookup result: one for a match, none
otherwise. -/
def clickListeners : Option Tool → List Listener
  | some m => [.navigate m.path]
  | none => []

/-- The listeners one run of the `forEach` callback registers, for events of type `type`,
on the element at position `y` with text `text`. -/
def registered (y : Nat) (text : String) : EventType → List Listener
  | .click => clickListeners (findTool allTools text)
  | .mouseover => [.hoverEnter y]
  | .mouseout => [.hoverExit y]

/-- The listeners one run of the binder registers on the element at position `y` of `d`. -/
def registeredAt (d : Document) (y : Nat) (type : EventType) : List Listener :=
  match d.items[y]? with
  | none => []
  | some item => registered y item.textContent type

/-- The number of candidate elements among the ancestors of `item` on which one run of the
binder registers a click listener. -/
def matchedAncestors (d : Document) (item : Element) : Nat :=
  (item.ancestors.filter (fun a => !(registeredAt d a .click).isEmpty)).length

/-- What an event leaves alone in an element: its text, its listeners and its ancestors. -/
def Element.frame (item : Element) : String × List (EventType × Listener) × List Nat :=
  (item.textContent, item.listeners, item.ancestors)

/-- A freshly parsed page with a flat list of items, at location `href`. -/
def page (href : String) (texts : List String) : Document :=
  { items := texts.map li, href := href, assignments := [] }

/-- Split a character list at every occurrence of `sep`. -/
def splitOn (sep : Char) : List Char → List (List Char)
  | [] => [[]]
  | c :: cs =>
    if c = sep then [] :: splitOn sep cs
    else
      match splitOn sep cs with
      | [] => [[c]]
      | w :: ws => (c :: w) :: ws

/-- Read a CSS `transition` shorthand: a comma-separated list of single transitions, each
written `property duration ...`; the result is the duration given to `property`. -/
def transitionDuration (value : String) (property : String) : Option String :=
  ((splitOn ',' value.data).map (fun t => splitOn ' ' (trimStart t))).findSome? fun ws =>
    match ws with
    | p :: duration :: _ => if p = property.data then some (String.mk duration) else none
    | _ => none

/-- ASCII case folding, used only to state case-sensitivity: every display name of the
table is ASCII. -/
def foldCase (s : String) : String := String.mk (s.data.map Char.toLower)

end Divipdf

namespace Divipdf

/-! ## Lemmas on `trim` -/

theorem trimStart_trimEnd_trimStart (cs : List Char) :
    trimStart (trimEnd (trimStart cs)) = trimEnd (trimStart cs) := by
  have hpre : trimEnd (trimStart cs) <+: trimStart cs := List.rdropWhile_prefix isWhiteSpace (trimStart cs)
  have hhead : ∀ (hl : 0 < (trimStart cs).length),
      ¬ isWhiteSpace ((trimStart cs).get ⟨0, hl⟩) = true :=
    List.dropWhile_eq_self_iff.mp (List.dropWhile_idempotent isWhiteSpace cs)
  unfold trimStart at *
  generalize List.dropWhile isWhiteSpace cs = m at hpre hhead
  generalize trimEnd m = t at hpre
  obtain ⟨u, rfl⟩ := hpre
  cases t with
  | nil => rfl
  | cons a t =>
    have ha := hhead (by simp)
    simp only [List.cons_append, List.get_eq_getElem, List.getElem_cons_zero] at ha
    simp [List.dropWhile_cons, ha]

theorem trimEnd_trimEnd (cs : List Char) : trimEnd (trimEnd cs) = trimEnd cs :=
  List.rdropWhile_idempotent isWhiteSpace cs

theorem trim_trim (s : String) : trim (trim s) = trim s := by
  simp only [trim, trimStart_trimEnd_trimStart, trimEnd_trimEnd]

theorem trimStart_pad (l n r : List Char) (hl : ∀ c ∈ l, isWhiteSpace c = true)
    (hne : n ≠ []) (hn : trimStart n = n) : trimStart (l ++ n ++ r) = n ++ r := by
  unfold trimStart at *
  rw [List.append_assoc, List.dropWhile_append_of_pos hl]
  cases n with
  | nil => exact absurd rfl hne
  | cons a n =>
    have ha : ¬ isWhiteSpace a = true := by
      have := List.dropWhile_eq_self_iff.mp hn (by simp)
      simpa using this
    simp [List.dropWhile_cons, ha]

theorem trimEnd_pad (n r : List Char) (hr : ∀ c ∈ r, isWhiteSpace c = true)
    (hne : n ≠ []) (hn : trimEnd n = n) : trimEnd (n ++ r) = n := by
  have hlast : ¬ isWhiteSpace (n.getLast hne) = true :=
    (List.rdropWhile_eq_self_iff (p := isWhiteSpace) (l := n)).mp hn hne
  induction r using List.reverseRecOn with
  | nil => simpa using hn
  | append_singleton r c ih =>
    have hc : isWhiteSpace c = true := hr c (by simp)
    have hr2 : ∀ c ∈ r, isWhiteSpace c = true := fun c hc => hr c (by simp [hc])
    have := List.rdropWhile_concat_pos isWhiteSpace (n ++ r) c hc
    rw [← List.append_assoc]
    exact this.trans (ih hr2)

theorem trim_pad (l n r : String) (hl : ∀ c ∈ l.data, isWhiteSpace c = true)
    (hr : ∀ c ∈ r.data, isWhiteSpace c = true) (hne : n.data ≠ []) (hn : trim n = n) :
    trim (l ++ n ++ r) = n := by
  have hs : trimStart n.data = n.data := by
    have h1 : (trim n).data = n.data := by rw [hn]
    have h2 := trimStart_trimEnd_trimStart n.data
    simp only [trim] at h1
    rw [h1] at h2
    exact h2
  have he : trimEnd n.data = n.data := by
    have h1 : (trim n).data = n.data := by rw [hn]
    simp only [trim] at h1
    rw [hs] at h1
    exact h1
  have : (l ++ n ++ r).data = l.data ++ n.data ++ r.data := by simp
  simp only [trim, this, trimStart_pad l.data n.data r.data hl hne hs,
    trimEnd_pad n.data r.data hr hne he]

/-! ## Lemmas on the lookup -/

theorem findTool_some {tools : List Tool} {s : String} {e : Tool}
    (h : findTool tools s = some e) : e ∈ tools ∧ trim s = e.name := by
  unfold findTool at h
  exact ⟨List.mem_of_find?_eq_some h, by simpa using List.find?_some h⟩

theorem findTool_eq_none {tools : List Tool} {s : String} :
    findTool tools s = none ↔ ∀ e ∈ tools, trim s ≠ e.name := by
  simp [findTool]

theorem findTool_of_mem {tools : List Tool} (hnd : (tools.map Tool.name).Nodup) {s : String}
    {e : Tool} (he : e ∈ tools) (hs : trim s = e.name) : findTool tools s = some e := by
  cases h : findTool tools s with
  | none => exact absurd hs (findTool_eq_none.mp h e he)
  | some e2 =>
    obtain ⟨h2, hs2⟩ := findTool_some h
    have := List.inj_on_of_nodup_map hnd h2 he (hs2.symm.trans hs)
    rw [this]

theorem findTool_perm {t1 t2 : List Tool} (hp : t1.Perm t2) (hnd : (t2.map Tool.name).Nodup)
    (s : String) : findTool t1 s = findTool t2 s := by
  have hnd1 : (t1.map Tool.name).Nodup := (hp.map Tool.name).nodup_iff.mpr hnd
  cases h : findTool t2 s with
  | none =>
    rw [findTool_eq_none] at h ⊢
    exact fun e he => h e (hp.mem_iff.mp he)
  | some e =>
    obtain ⟨he, hs⟩ := findTool_some h
    exact findTool_of_mem hnd1 (hp.mem_iff.mpr he) hs

theorem allTools_names_nodup : (allTools.map Tool.name).Nodup := by decide

/-! ## Lemmas on the binder -/

theorem getElem?_forEach (f : Nat → Element → Element) (l : List Element) (k i : Nat) :
    (forEach f k l)[i]? = l[i]?.map (f (k + i)) := by
  induction l generalizing k i with
  | nil => simp [forEach]
  | cons a l ih =>
    cases i with
    | zero => simp [forEach]
    | succ i =>
      simp only [forEach, List.getElem?_cons_succ, ih]
      rw [show k + 1 + i = k + (i + 1) by omega]

theorem items_onDOMContentLoaded (d : Document) (x : Nat) :
    (onDOMContentLoaded d).items[x]? = d.items[x]?.map (bindItem x) := by
  simp [onDOMContentLoaded, getElem?_forEach]

theorem listenersFor_addEventListener (item : Element) (type type2 : EventType)
    (l : Listener) :
    (item.addEventListener type l).listenersFor type2 =
      item.listenersFor type2 ++ (if type = type2 then [l] else []) := by
  by_cases h : type = type2 <;>
    simp [Element.addEventListener, Element.listenersFor, List.filter_cons, h]

theorem listenersFor_bindItem (i : Nat) (item : Element) :
    (bindItem i item).listenersFor .click =
      item.listenersFor .click ++ clickListeners (findTool allTools item.textContent) ∧
    (bindItem i item).listenersFor .mouseover =
      item.listenersFor .mouseover ++ [.hoverEnter i] ∧
    (bindItem i item).listenersFor .mouseout =
      item.listenersFor .mouseout ++ [.hoverExit i] := by
  unfold bindItem
  cases findTool allTools item.textContent
  · simp [listenersFor_addEventListener, clickListeners]
  · simp only [listenersFor_addEventListener, clickListeners]
    simp [Element.listenersFor]

theorem textContent_bindItem (i : Nat) (item : Element) :
    (bindItem i item).textContent = item.textContent := by
  unfold bindItem
  cases findTool allTools item.textContent <;> rfl

theorem listenersFor_nil (item : Element) (h : item.listeners = []) (type : EventType) :
    item.listenersFor type = [] := by
  simp [Element.listenersFor, h]

/-! ## Lemmas on the listeners' bodies -/

theorem getElem?_setStyle (d : Document) (i y : Nat) (f : Style → Style) :
    (d.setStyle i f).items[y]? =
      if i = y then d.items[y]?.map (fun item => { item with style := f item.style })
      else d.items[y]? := by
  simp only [Document.setStyle, List.getElem?_modify]
  by_cases h : i = y <;> simp [h]

theorem getElem?_call_ne (l : Listener) (d : Document) (x y : Nat) (hxy : y ≠ x)
    (hl : l = .hoverEnter x ∨ l = .hoverExit x ∨ ∃ p, l = .navigate p) :
    (l.call d).items[y]? = d.items[y]? := by
  have hne : ¬ x = y := fun h => hxy h.symm
  rcases hl with rfl | rfl | ⟨p, rfl⟩
  · simp [Listener.call, getElem?_setStyle, hne]
  · simp [Listener.call, getElem?_setStyle, hne]
  · rfl

theorem call_keeps (l : Listener) (d : Document) (y : Nat) :
    (l.call d).items.length = d.items.length ∧
    (l.call d).items[y]?.map Element.frame =
      d.items[y]?.map Element.frame := by
  cases l with
  | navigate p => exact ⟨rfl, rfl⟩
  | hoverEnter i =>
    refine ⟨by simp [Listener.call, Document.setStyle], ?_⟩
    simp only [Listener.call, getElem?_setStyle]
    by_cases h : i = y <;> simp [h]; cases d.items[y]? <;> rfl
  | hoverExit i =>
    refine ⟨by simp [Listener.call, Document.setStyle], ?_⟩
    simp only [Listener.call, getElem?_setStyle]
    by_cases h : i = y <;> simp [h]; cases d.items[y]? <;> rfl

theorem callAll_append (ls ms : List Listener) (d : Document) :
    callAll (ls ++ ms) d = callAll ms (callAll ls d) := by
  simp [callAll, List.foldl_append]

theorem callAll_keeps (ls : List Listener) (d : Document) (y : Nat) :
    (callAll ls d).items.length = d.items.length ∧
    (callAll ls d).items[y]?.map Element.frame =
      d.items[y]?.map Element.frame := by
  induction ls generalizing d with
  | nil => exact ⟨rfl, rfl⟩
  | cons l ls ih =>
    have h1 := call_keeps l d y
    have h2 := ih (l.call d)
    exact ⟨h2.1.trans h1.1, h2.2.trans h1.2⟩

theorem invokeListeners_keeps (d : Document) (x : Nat) (type : EventType) (y : Nat) :
    (invokeListeners d x type).items.length = d.items.length ∧
    (invokeListeners d x type).items[y]?.map Element.frame =
      d.items[y]?.map Element.frame := by
  unfold invokeListeners
  cases d.items[x]? with
  | none => exact ⟨rfl, rfl⟩
  | some item => exact callAll_keeps _ d y

theorem invokeListeners_last (d : Document) (x : Nat) (item : Element) (type : EventType)
    (ls : List Listener) (l : Listener) (hx : d.items[x]? = some item)
    (hl : item.listenersFor type = ls ++ [l]) :
    invokeListeners d x type = l.call (callAll ls d) := by
  unfold invokeListeners
  rw [hx]
  simp only [hl, callAll_append]
  rfl

theorem call_hoverEnter (d : Document) (x : Nat) (hlt : x < d.items.length) :
    ∃ it, ((Listener.hoverEnter x).call d).items[x]? = some it ∧
      it.style.transform = "scale(1.05)" ∧
      it.style.transition = "transform 0.2s ease, color 0.3s" := by
  obtain ⟨it0, h0⟩ : ∃ it0, d.items[x]? = some it0 := ⟨_, List.getElem?_eq_getElem hlt⟩
  have h : ((Listener.hoverEnter x).call d).items[x]? =
      some { it0 with style := { it0.style with
        transition := "transform 0.2s ease, color 0.3s", transform := "scale(1.05)" } } := by
    simp [Listener.call, getElem?_setStyle, h0]
  exact ⟨_, h, rfl, rfl⟩

theorem call_hoverExit (d : Document) (x : Nat) (hlt : x < d.items.length) :
    ∃ it, ((Listener.hoverExit x).call d).items[x]? = some it ∧
      it.style.transform = "scale(1)" := by
  obtain ⟨it0, h0⟩ : ∃ it0, d.items[x]? = some it0 := ⟨_, List.getElem?_eq_getElem hlt⟩
  have h : ((Listener.hoverExit x).call d).items[x]? =
      some { it0 with style := { it0.style with transform := "scale(1)" } } := by
    simp [Listener.call, getElem?_setStyle, h0]
  exact ⟨_, h, rfl⟩

theorem lt_length_of_getElem? {d : Document} {x : Nat} {item : Element}
    (hx : d.items[x]? = some item) : x < d.items.length := by
  rcases Nat.lt_or_ge x d.items.length with h | h
  · exact h
  · rw [List.getElem?_eq_none h] at hx
    exact nomatch hx

theorem listeners_of_keeps {a b : Option Element} {item : Element} (hb : b = some item)
    (h : a.map Element.frame =
      b.map Element.frame) :
    ∃ it, a = some it ∧ it.listeners = item.listeners ∧
      it.textContent = item.textContent ∧ it.ancestors = item.ancestors := by
  subst hb
  cases a with
  | none => exact nomatch h
  | some it =>
    simp only [Option.map_some', Option.some.injEq, Element.frame, Prod.mk.injEq] at h
    exact ⟨it, rfl, h.2.1, h.1, h.2.2⟩

/-! ## Lemmas on nested texts -/

theorem trim_contained (s : String) : (trim s).data <:+: s.data := by
  have h1 : trimEnd (trimStart s.data) <+: trimStart s.data :=
    List.rdropWhile_prefix isWhiteSpace (trimStart s.data)
  have h2 : trimStart s.data <:+ s.data := List.dropWhile_suffix isWhiteSpace
  exact h1.isInfix.trans h2.isInfix

theorem infix_trimStart (n t : List Char) (hne : n ≠ []) (hn : trimStart n = n)
    (h : n <:+: t) : n <:+: trimStart t := by
  obtain ⟨u, v, rfl⟩ := h
  induction u with
  | nil =>
    have := trimStart_pad [] n v (by simp) hne hn
    simp only [List.nil_append] at this ⊢
    rw [this]
    exact List.prefix_append n v |>.isInfix
  | cons c u ih =>
    unfold trimStart at ih ⊢
    simp only [List.cons_append, List.dropWhile_cons]
    cases isWhiteSpace c with
    | true => simpa using ih
    | false => exact ⟨c :: u, v, by simp⟩

theorem infix_trim (n : List Char) (t : String) (hne : n ≠ []) (hs : trimStart n = n)
    (he : trimEnd n = n) (h : n <:+: t.data) : n <:+: (trim t).data := by
  have h1 := infix_trimStart n t.data hne hs h
  have hrev : trimStart n.reverse = n.reverse := by
    have := congrArg List.reverse he
    simp only [trimEnd, List.reverse_reverse] at this
    exact this
  have h2 := infix_trimStart n.reverse (trimStart t.data).reverse (by simpa using hne) hrev
    (List.reverse_infix.mpr h1)
  have h3 := List.reverse_infix.mpr h2
  simpa [trim, trimEnd, trimStart] using h3

theorem names_trimmed :
    ∀ t ∈ allTools, t.name.data ≠ [] ∧ trimStart t.name.data = t.name.data ∧
      trimEnd t.name.data = t.name.data := by
  decide

theorem names_infix_free :
    ∀ a ∈ allTools, ∀ b ∈ allTools, a.name.data <:+: b.name.data → a = b := by
  decide

theorem matched_nested {s t : String} {e m : Tool} (he : e ∈ allTools) (hs : trim s = e.name)
    (hst : s.data <:+: t.data) (hm : findTool allTools t = some m) : m = e := by
  obtain ⟨hmem, ht⟩ := findTool_some hm
  obtain ⟨hne, h1, h2⟩ := names_trimmed e he
  have hin : e.name.data <:+: t.data := by
    rw [← hs]
    exact (trim_contained s).trans hst
  have := infix_trim e.name.data t hne h1 h2 hin
  rw [ht] at this
  exact (names_infix_free e he m hmem this).symm

/-! ## Lemmas on propagation -/

theorem invokeListeners_eq (d : Document) (y : Nat) (type : EventType) :
    invokeListeners d y type = callAll (listenersAt d.items y type) d := by
  unfold invokeListeners listenersAt
  cases d.items[y]? <;> rfl

theorem listenersAt_congr {items1 items2 : List Element} {y : Nat}
    (h : items1[y]?.map Element.frame = items2[y]?.map Element.frame) (type : EventType) :
    listenersAt items1 y type = listenersAt items2 y type := by
  unfold listenersAt
  cases h2 : items2[y]? with
  | none =>
    rw [h2] at h
    cases h1 : items1[y]? with
    | none => rfl
    | some it => rw [h1] at h; exact nomatch h
  | some it2 =>
    obtain ⟨it1, h1, hl, _, _⟩ := listeners_of_keeps h2 h
    rw [h1]
    simp only [Element.listenersFor, hl]

theorem foldl_invoke_eq (type : EventType) (path : List Nat) (d0 d : Document)
    (hf : ∀ y : Nat, d.items[y]?.map Element.frame = d0.items[y]?.map Element.frame) :
    path.foldl (fun acc y => invokeListeners acc y type) d =
      callAll (path.flatMap (fun y => listenersAt d0.items y type)) d := by
  induction path generalizing d with
  | nil => rfl
  | cons y path ih =>
    simp only [List.foldl_cons, List.flatMap_cons, callAll_append]
    rw [invokeListeners_eq, listenersAt_congr (hf y) type]
    exact ih _ (fun z => ((callAll_keeps _ d z).2).trans (hf z))

theorem dispatchEvent_eq (d : Document) (x : Nat) (item : Element) (type : EventType)
    (hx : d.items[x]? = some item) :
    dispatchEvent d x type =
      callAll ((x :: item.ancestors).flatMap (fun y => listenersAt d.items y type)) d := by
  unfold dispatchEvent
  rw [hx]
  exact foldl_invoke_eq type _ d d (fun _ => rfl)

theorem dispatchEvent_keeps (d : Document) (x : Nat) (type : EventType) (y : Nat) :
    (dispatchEvent d x type).items.length = d.items.length ∧
    (dispatchEvent d x type).items[y]?.map Element.frame =
      d.items[y]?.map Element.frame := by
  cases hx : d.items[x]? with
  | none =>
    unfold dispatchEvent
    rw [hx]
    exact ⟨rfl, rfl⟩
  | some item =>
    rw [dispatchEvent_eq d x item type hx]
    exact callAll_keeps _ d y

theorem callAll_of_navigate (ls : List Listener) (d : Document)
    (h : ∀ l ∈ ls, ∃ p, l = .navigate p) : (callAll ls d).items = d.items := by
  induction ls generalizing d with
  | nil => rfl
  | cons l ls ih =>
    obtain ⟨p, rfl⟩ := h l (by simp)
    exact (ih _ (fun l hl => h l (by simp [hl]))).trans rfl

theorem callAll_of_hover (ls : List Listener) (d : Document)
    (h : ∀ l ∈ ls, ∃ a, l = .hoverEnter a ∨ l = .hoverExit a) :
    (callAll ls d).href = d.href ∧ (callAll ls d).assignments = d.assignments := by
  induction ls generalizing d with
  | nil => exact ⟨rfl, rfl⟩
  | cons l ls ih =>
    have h2 := ih (l.call d) (fun l hl => h l (by simp [hl]))
    obtain ⟨a, rfl | rfl⟩ := h l (by simp)
    · exact ⟨h2.1.trans rfl, h2.2.trans rfl⟩
    · exact ⟨h2.1.trans rfl, h2.2.trans rfl⟩

theorem callAll_getElem?_ne (ls : List Listener) (d : Document) (y : Nat)
    (h : ∀ l ∈ ls, ∃ a, y ≠ a ∧ (l = .hoverEnter a ∨ l = .hoverExit a ∨ ∃ p, l = .navigate p)) :
    (callAll ls d).items[y]? = d.items[y]? := by
  induction ls generalizing d with
  | nil => rfl
  | cons l ls ih =>
    have h2 := ih (l.call d) (fun l hl => h l (by simp [hl]))
    obtain ⟨a, hya, hl⟩ := h l (by simp)
    exact h2.trans (getElem?_call_ne l d a y hya hl)

theorem callAll_navigate_href (ls : List Listener) (p : String) (d : Document)
    (hne : ls ≠ []) (h : ∀ l ∈ ls, l = .navigate p) : (callAll ls d).href = p := by
  induction ls generalizing d with
  | nil => exact absurd rfl hne
  | cons l ls ih =>
    have hl : l = .navigate p := h l (by simp)
    subst hl
    cases ls with
    | nil => rfl
    | cons l2 ls => exact ih _ (by simp) (fun l hl => h l (by simp [hl]))

theorem callAll_navigate_assignments (ps : List String) (d : Document) :
    (callAll (ps.map .navigate) d).assignments = d.assignments ++ ps := by
  induction ps generalizing d with
  | nil => simp [callAll]
  | cons p ps ih =>
    have := ih ((Listener.navigate p).call d)
    simp only [List.map_cons]
    exact this.trans (by simp [Listener.call])

/-! ## Lemmas on what the binder registers -/

theorem ancestors_bindItem (i : Nat) (item : Element) :
    (bindItem i item).ancestors = item.ancestors := by
  unfold bindItem
  cases findTool allTools item.textContent <;> rfl

theorem listenersFor_bindItem_registered (i : Nat) (item : Element) (type : EventType) :
    (bindItem i item).listenersFor type =
      item.listenersFor type ++ registered i item.textContent type := by
  have h := listenersFor_bindItem i item
  cases type <;> simp only [registered]
  · exact h.1
  · exact h.2.1
  · exact h.2.2

theorem listenersAt_bind (d : Document) (hF : d.Fresh) (y : Nat) (type : EventType) :
    listenersAt (onDOMContentLoaded d).items y type = registeredAt d y type := by
  unfold listenersAt registeredAt
  rw [items_onDOMContentLoaded]
  cases hy : d.items[y]? with
  | none => rfl
  | some it =>
    simp only [Option.map_some', listenersFor_bindItem_registered,
      listenersFor_nil it (hF it (List.getElem?_mem hy)), List.nil_append]

theorem listenersAt_bind_bind (d : Document) (hF : d.Fresh) (y : Nat) (type : EventType) :
    listenersAt (onDOMContentLoaded (onDOMContentLoaded d)).items y type =
      registeredAt d y type ++ registeredAt d y type := by
  unfold listenersAt registeredAt
  rw [items_onDOMContentLoaded, items_onDOMContentLoaded]
  cases hy : d.items[y]? with
  | none => rfl
  | some it =>
    simp only [Option.map_some', listenersFor_bindItem_registered, textContent_bindItem,
      listenersFor_nil it (hF it (List.getElem?_mem hy)), List.nil_append]

theorem registeredAt_click_of_matched {d : Document} {x : Nat} {item : Element} {e : Tool}
    (hx : d.items[x]? = some item) (he : e ∈ allTools) (ht : trim item.textContent = e.name) :
    registeredAt d x .click = [.navigate e.path] := by
  unfold registeredAt
  rw [hx]
  simp only [registered, findTool_of_mem allTools_names_nodup he ht, clickListeners]

theorem registeredAt_click_of_unmatched {d : Document} {a : Nat}
    (h : ∀ anc ∈ d.items[a]?, findTool allTools anc.textContent = none) :
    registeredAt d a .click = [] := by
  unfold registeredAt
  cases ha : d.items[a]? with
  | none => rfl
  | some anc =>
    simp only [registered, h anc (by rw [ha]; exact rfl), clickListeners]

theorem registeredAt_click_nested {d : Document} {x : Nat} {item : Element} {e : Tool}
    (hW : d.WellNested) (hx : d.items[x]? = some item) (he : e ∈ allTools)
    (ht : trim item.textContent = e.name) (a : Nat) (ha : a ∈ item.ancestors) :
    registeredAt d a .click = [] ∨ registeredAt d a .click = [.navigate e.path] := by
  unfold registeredAt
  cases hy : d.items[a]? with
  | none => exact Or.inl rfl
  | some anc =>
    simp only [registered]
    cases hm : findTool allTools anc.textContent with
    | none => exact Or.inl rfl
    | some m =>
      have hin := hW item (List.getElem?_mem hx) a ha anc (by rw [hy]; exact rfl)
      rw [matched_nested he ht hin hm]
      exact Or.inr rfl

theorem registeredAt_form {d : Document} {a : Nat} {type : EventType} {l : Listener}
    (hl : l ∈ registeredAt d a type) :
    (type = .click ∧ ∃ p, l = .navigate p) ∨ (type = .mouseover ∧ l = .hoverEnter a) ∨
      (type = .mouseout ∧ l = .hoverExit a) := by
  unfold registeredAt at hl
  cases ha : d.items[a]? with
  | none => rw [ha] at hl; exact nomatch hl
  | some it =>
    rw [ha] at hl
    cases type with
    | click =>
      simp only [registered] at hl
      cases hr : findTool allTools it.textContent with
      | none => rw [hr] at hl; exact nomatch hl
      | some m =>
        rw [hr] at hl
        exact Or.inl ⟨rfl, m.path, by simpa [clickListeners] using hl⟩
    | mouseover => exact Or.inr (Or.inl ⟨rfl, by simpa [registered] using hl⟩)
    | mouseout => exact Or.inr (Or.inr ⟨rfl, by simpa [registered] using hl⟩)

theorem registeredAt_hover {d : Document} {x : Nat} {item : Element}
    (hx : d.items[x]? = some item) :
    registeredAt d x .mouseover = [.hoverEnter x] ∧
    registeredAt d x .mouseout = [.hoverExit x] := by
  unfold registeredAt
  rw [hx]
  exact ⟨rfl, rfl⟩

theorem listeners_of_frame {a b : Option Element}
    (h : a.map Element.frame = b.map Element.frame) :
    a.map Element.listeners = b.map Element.listeners := by
  cases a <;> cases b <;> simp_all [Element.frame]

theorem dispatchEvent_of_frame (d0 d : Document) (x : Nat) (item : Element)
    (type : EventType)
    (hf : ∀ y : Nat, d.items[y]?.map Element.frame = d0.items[y]?.map Element.frame)
    (hx : d0.items[x]? = some item) :
    dispatchEvent d x type =
      callAll ((x :: item.ancestors).flatMap (fun y => listenersAt d0.items y type)) d := by
  obtain ⟨it, h1, _, _, hanc⟩ := listeners_of_keeps hx (hf x)
  unfold dispatchEvent
  rw [h1]
  simp only [hanc]
  exact foldl_invoke_eq type _ d0 d hf

theorem dispatchEvent_bind (d : Document) (hF : d.Fresh) (x : Nat) (item : Element)
    (type : EventType) (hx : d.items[x]? = some item) :
    dispatchEvent (onDOMContentLoaded d) x type =
      callAll ((x :: item.ancestors).flatMap (fun y => registeredAt d y type))
        (onDOMContentLoaded d) := by
  have hitem : (onDOMContentLoaded d).items[x]? = some (bindItem x item) := by
    rw [items_onDOMContentLoaded, hx]
    rfl
  rw [dispatchEvent_eq _ x _ type hitem, ancestors_bindItem]
  simp only [listenersAt_bind d hF]

theorem dispatchEvent_bind_bind (d : Document) (hF : d.Fresh) (x : Nat) (item : Element)
    (type : EventType) (hx : d.items[x]? = some item) :
    dispatchEvent (onDOMContentLoaded (onDOMContentLoaded d)) x type =
      callAll ((x :: item.ancestors).flatMap
          (fun y => registeredAt d y type ++ registeredAt d y type))
        (onDOMContentLoaded (onDOMContentLoaded d)) := by
  have hitem : (onDOMContentLoaded (onDOMContentLoaded d)).items[x]? =
      some (bindItem x (bindItem x item)) := by
    rw [items_onDOMContentLoaded, items_onDOMContentLoaded, hx]
    rfl
  rw [dispatchEvent_eq _ x _ type hitem, ancestors_bindItem, ancestors_bindItem]
  simp only [listenersAt_bind_bind d hF]

theorem flatMap_nil_of_forall {f : Nat → List Listener} {as : List Nat}
    (h : ∀ a ∈ as, f a = []) : as.flatMap f = [] := by
  induction as with
  | nil => rfl
  | cons a as ih =>
    rw [List.flatMap_cons, h a (by simp), ih (fun b hb => h b (by simp [hb]))]
    rfl

theorem flatMap_twice_navigate (f : Nat → List Listener) (p : String) (as : List Nat)
    (h : ∀ a ∈ as, f a = [] ∨ f a = [.navigate p]) :
    as.flatMap (fun a => f a ++ f a) =
      (List.replicate (2 * (as.filter (fun a => !(f a).isEmpty)).length) p).map
        .navigate := by
  induction as with
  | nil => rfl
  | cons a as ih =>
    rw [List.flatMap_cons, ih (fun b hb => h b (by simp [hb]))]
    rcases h a (by simp) with h0 | h1
    · simp [h0, List.filter_cons]
    · simp [h1, List.filter_cons, Nat.mul_succ, List.replicate_succ]

theorem callAll_hover_style (P : Style → Prop) (x : Nat) (ls : List Listener)
    (d : Document) (hP : ∃ it, d.items[x]? = some it ∧ P it.style)
    (h : ∀ l ∈ ls, ∀ d2 : Document, (∃ it, d2.items[x]? = some it ∧ P it.style) →
      ∃ it, (l.call d2).items[x]? = some it ∧ P it.style) :
    ∃ it, (callAll ls d).items[x]? = some it ∧ P it.style := by
  induction ls generalizing d with
  | nil => exact hP
  | cons l ls ih =>
    exact ih (l.call d) (h l (by simp) d hP) (fun l2 hl2 => h l2 (by simp [hl2]))

theorem call_hoverEnter_style (a x : Nat) (d : Document)
    (hP : ∃ it, d.items[x]? = some it ∧ it.style.transform = "scale(1.05)" ∧
      it.style.transition = "transform 0.2s ease, color 0.3s") :
    ∃ it, ((Listener.hoverEnter a).call d).items[x]? = some it ∧
      it.style.transform = "scale(1.05)" ∧
      it.style.transition = "transform 0.2s ease, color 0.3s" := by
  by_cases hax : x = a
  · subst hax
    obtain ⟨it, hit, _⟩ := hP
    exact call_hoverEnter d x (lt_length_of_getElem? hit)
  · rw [getElem?_call_ne _ d a x hax (Or.inl rfl)]
    exact hP

theorem call_hoverExit_style (a x : Nat) (d : Document)
    (hP : ∃ it, d.items[x]? = some it ∧ it.style.transform = "scale(1)") :
    ∃ it, ((Listener.hoverExit a).call d).items[x]? = some it ∧
      it.style.transform = "scale(1)" := by
  by_cases hax : x = a
  · subst hax
    obtain ⟨it, hit, _⟩ := hP
    exact call_hoverExit d x (lt_length_of_getElem? hit)
  · rw [getElem?_call_ne _ d a x hax (Or.inr (Or.inl rfl))]
    exact hP

end Divipdf

namespace Divipdf

/-! ## The table -/

/-- C3: `allTools` is the four document tools followed by the six image tools, ten entries
in all, and its (name, path) pairs are, in order, the ten rows of the configuration table. -/
theorem allTools_table :
    allTools = pdfTools ++ imageTools ∧ pdfTools.length = 4 ∧ imageTools.length = 6 ∧
    allTools.length = 10 ∧
    allTools.map (fun t => (t.name, t.path)) =
      [ ("PDF to Word", "../pdf-tools/pdf-to-word/index.html"),
        ("Word to PDF", "../pdf-tools/word-to-pdf/index.html"),
        ("Merge PDF", "../pdf-tools/merge-pdf/index.html"),
        ("Compress PDF", "../pdf-tools/compress-pdf/index.html"),
        ("Image Compress (JPG/PNG/WEBP)", "../image-tools/compress/index.html"),
        ("Image Resize (Custom Dimension)", "../image-tools/resize/index.html"),
        ("Image to PDF", "../image-tools/to-pdf/index.html"),
        ("Convert Image Format (JPEG-PNG-WEBP)", "../image-tools/convert-format/index.html"),
        ("Remove Background", "../image-tools/remove-bg/index.html"),
        ("Watermark Remover", "../image-tools/remove-watermark/index.html") ] := by
  refine ⟨rfl, rfl, rfl, rfl, rfl⟩

/-! ## Matching -/

/-- C4: leading and trailing white space never affects matching.  The lookup of `s` is the
lookup of `trim s`; a text made of a table name `e.name` between two runs of white space is
matched to `e`; every table name is its own trimmed form; and `"  Merge PDF  "` is matched
to the entry "Merge PDF". -/
theorem findTool_ignores_padding (s l r : String) (e : Tool) (he : e ∈ allTools)
    (hl : ∀ c ∈ l.data, isWhiteSpace c = true) (hr : ∀ c ∈ r.data, isWhiteSpace c = true) :
    findTool allTools s = findTool allTools (trim s) ∧
    findTool allTools (l ++ e.name ++ r) = some e ∧
    trim (l ++ e.name ++ r) = e.name ∧
    trim e.name = e.name ∧
    findTool allTools "  Merge PDF  " =
      some { name := "Merge PDF", path := "../pdf-tools/merge-pdf/index.html" } := by
  have hnames : ∀ t ∈ allTools, t.name.data ≠ [] ∧ trim t.name = t.name := by decide
  obtain ⟨hne, htrim⟩ := hnames e he
  have hpad := trim_pad l e.name r hl hr hne htrim
  refine ⟨?_, findTool_of_mem allTools_names_nodup he hpad, hpad, htrim, by decide⟩
  simp only [findTool, trim_trim]

/-- Witness of C4: the text `"\t Merge PDF \n"`. -/
theorem findTool_ignores_padding_witness :
    findTool allTools "\t Merge PDF \n" = findTool allTools (trim "\t Merge PDF \n") ∧
    findTool allTools
        ("\t " ++ (Tool.mk "Merge PDF" "../pdf-tools/merge-pdf/index.html").name ++ " \n") =
      some (Tool.mk "Merge PDF" "../pdf-tools/merge-pdf/index.html") :=
  have h := findTool_ignores_padding "\t Merge PDF \n" "\t " " \n"
    (Tool.mk "Merge PDF" "../pdf-tools/merge-pdf/index.html") (by decide) (by decide)
    (by decide)
  ⟨h.1, h.2.1⟩

/-- C5: matching is exact, case-sensitive equality.  For any case folding `fold` under which
no two table names coincide, a text whose trimmed form folds to the folded name of an entry
`e` without being equal to that name is not matched to `e`, and is matched to no entry, so
the binder registers no click listener for it.  ASCII case folding is such a folding, and
`"merge pdf"` matches nothing. -/
theorem findTool_case_sensitive (fold : String → String) (s : String) (e : Tool)
    (hfold : ∀ a ∈ allTools, ∀ b ∈ allTools, fold a.name = fold b.name → a.name = b.name)
    (he : e ∈ allTools) (hcase : fold (trim s) = fold e.name) (hne : trim s ≠ e.name) :
    findTool allTools s ≠ some e ∧ findTool allTools s = none ∧
    (∀ (i : Nat) (item : Element), item.textContent = s →
      (bindItem i item).listenersFor .click = item.listenersFor .click) ∧
    (∀ a ∈ allTools, ∀ b ∈ allTools, foldCase a.name = foldCase b.name → a.name = b.name) ∧
    findTool allTools "merge pdf" = none ∧
    (bindItem 0 (li "merge pdf")).listenersFor .click = [] := by
  have hnone : findTool allTools s = none := by
    rw [findTool_eq_none]
    intro a ha hs
    exact hne (hs.trans (hfold a ha e he (hs ▸ hcase)))
  refine ⟨(by rw [hnone]; exact fun h => nomatch h), hnone, ?_, by decide, by decide, by decide⟩
  intro i item ht
  subst ht
  simp [bindItem, hnone, Element.listenersFor, Element.addEventListener]

/-- Witness of C5: ASCII case folding, the text `"merge pdf"` and the entry "Merge PDF". -/
theorem findTool_case_sensitive_witness :
    findTool allTools "merge pdf" ≠ some (Tool.mk "Merge PDF" "../pdf-tools/merge-pdf/index.html") ∧
    findTool allTools "merge pdf" = none :=
  have h := findTool_case_sensitive foldCase "merge pdf"
    (Tool.mk "Merge PDF" "../pdf-tools/merge-pdf/index.html") (by decide) (by decide)
    (by decide) (by decide)
  ⟨h.1, h.2.1⟩

/-- C8: the display names of `allTools` are pairwise distinct, so at most one entry has the
trimmed text as its name, and the lookup does not depend on the order of the table: over
any permutation of the ten entries it returns what it returns over the declared table. -/
theorem findTool_order_independent (tools : List Tool) (s : String)
    (hperm : tools.Perm allTools) :
    List.Pairwise (fun a b => a.name ≠ b.name) allTools ∧
    (∀ e₁ ∈ allTools, ∀ e₂ ∈ allTools, e₁.name = trim s → e₂.name = trim s → e₁ = e₂) ∧
    findTool tools s = findTool allTools s := by
  refine ⟨by decide, ?_, findTool_perm hperm allTools_names_nodup s⟩
  intro e₁ h₁ e₂ h₂ hn₁ hn₂
  exact List.inj_on_of_nodup_map allTools_names_nodup h₁ h₂ (hn₁.trans hn₂.symm)

/-- Witness of C8: the table with the image tools first, and the text `" Image to PDF "`. -/
theorem findTool_order_independent_witness :
    findTool (imageTools ++ pdfTools) " Image to PDF " = findTool allTools " Image to PDF " :=
  (findTool_order_independent (imageTools ++ pdfTools) " Image to PDF "
    List.perm_append_comm).2.2

/-! ## Click -/

/-- C1: for every page and every candidate element whose trimmed text is the display name of
an entry `e` of the table, after the binder has run a click on the element sets
`window.location.href` to `e.path`; for the text "Compress PDF" that is
`../pdf-tools/compress-pdf/index.html`.  This holds when the listeners of the element are
invoked (whatever listeners it carried before) and when the click is dispatched on a freshly
parsed page and bubbles through the ancestors of the element. -/
theorem click_navigates (d : Document) (x : Nat) (item : Element) (e : Tool)
    (hx : d.items[x]? = some item) (he : e ∈ allTools)
    (ht : trim item.textContent = e.name) :
    (invokeListeners (onDOMContentLoaded d) x .click).href = e.path ∧
    (trim item.textContent = "Compress PDF" →
      (invokeListeners (onDOMContentLoaded d) x .click).href =
        "../pdf-tools/compress-pdf/index.html") ∧
    (d.Fresh → d.WellNested →
      (dispatchEvent (onDOMContentLoaded d) x .click).href = e.path ∧
      (trim item.textContent = "Compress PDF" →
        (dispatchEvent (onDOMContentLoaded d) x .click).href =
          "../pdf-tools/compress-pdf/index.html")) := by
  have hfind := findTool_of_mem allTools_names_nodup he ht
  have hhref : (invokeListeners (onDOMContentLoaded d) x .click).href = e.path := by
    unfold invokeListeners
    rw [items_onDOMContentLoaded, hx]
    simp only [Option.map_some', (listenersFor_bindItem x item).1, hfind, clickListeners,
      callAll_append]
    rfl
  have hrow : ∀ t ∈ allTools, t.name = "Compress PDF" →
      t.path = "../pdf-tools/compress-pdf/index.html" := by decide
  refine ⟨hhref, fun hc => ?_, fun hF hW => ?_⟩
  · rw [hhref]
    exact hrow e he (ht.symm.trans hc)
  · have hd : (dispatchEvent (onDOMContentLoaded d) x .click).href = e.path := by
      rw [dispatchEvent_bind d hF x item .click hx]
      refine callAll_navigate_href _ e.path _ ?_ ?_
      · rw [List.flatMap_cons, registeredAt_click_of_matched hx he ht]
        exact fun h => nomatch h
      · intro l hl
        obtain ⟨a, ha, hla⟩ := List.mem_flatMap.mp hl
        rcases List.mem_cons.mp ha with rfl | ha
        · rw [registeredAt_click_of_matched hx he ht] at hla
          simpa using hla
        · rcases registeredAt_click_nested hW hx he ht a ha with h0 | h1
          · rw [h0] at hla
            exact nomatch hla
          · rw [h1] at hla
            simpa using hla
    refine ⟨hd, fun hc => ?_⟩
    rw [hd]
    exact hrow e he (ht.symm.trans hc)

/-- Witness of C1: on `toolsPage`, a click on the nested item " Compress PDF ". -/
theorem click_navigates_witness :
    (dispatchEvent (onDOMContentLoaded toolsPage) 2 .click).href =
      "../pdf-tools/compress-pdf/index.html" :=
  ((click_navigates toolsPage 2 (nestedLi " Compress PDF " [0])
    (Tool.mk "Compress PDF" "../pdf-tools/compress-pdf/index.html") (by decide) (by decide)
    (by decide)).2.2 (by unfold Document.Fresh; decide)
    (by unfold Document.WellNested; decide)).1

/-- C2 (amended): for every page and every candidate element whose trimmed text is the
display name of no entry, the binder registers no click listener on the element.  On a
freshly parsed page, when no candidate element among its ancestors matches an entry, a click
on the element leaves the whole document, the navigation target included, as it was.  An
element with text "Random Tool" has no matched ancestor, since the text of an ancestor
contains "Random Tool" and no display name does. -/
theorem no_match_no_click (d : Document) (x : Nat) (item : Element)
    (hx : d.items[x]? = some item) (hm : ∀ e ∈ allTools, trim item.textContent ≠ e.name) :
    (∃ item1, (onDOMContentLoaded d).items[x]? = some item1 ∧
      item1.listenersFor .click = item.listenersFor .click) ∧
    (d.Fresh → d.NoMatchedAncestor item →
      dispatchEvent (onDOMContentLoaded d) x .click = onDOMContentLoaded d ∧
      (dispatchEvent (onDOMContentLoaded d) x .click).href = d.href ∧
      (dispatchEvent (onDOMContentLoaded d) x .click).assignments = d.assignments) ∧
    findTool allTools "Random Tool" = none ∧
    (d.WellNested → trim item.textContent = "Random Tool" → d.NoMatchedAncestor item) := by
  have hnone : findTool allTools item.textContent = none := findTool_eq_none.mpr hm
  have hl : (bindItem x item).listenersFor .click = item.listenersFor .click := by
    rw [(listenersFor_bindItem x item).1, hnone]
    simp [clickListeners]
  have hitem : (onDOMContentLoaded d).items[x]? = some (bindItem x item) := by
    rw [items_onDOMContentLoaded, hx]
    rfl
  refine ⟨⟨_, hitem, hl⟩, fun hF hA => ?_, by decide, fun hW hr => ?_⟩
  · have hd : dispatchEvent (onDOMContentLoaded d) x .click = onDOMContentLoaded d := by
      rw [dispatchEvent_bind d hF x item .click hx, flatMap_nil_of_forall]
      · rfl
      · intro a ha
        rcases List.mem_cons.mp ha with rfl | ha
        · exact registeredAt_click_of_unmatched
            (fun anc hanc => by rw [hx] at hanc; cases hanc; exact hnone)
        · exact registeredAt_click_of_unmatched (hA a ha)
    exact ⟨hd, by rw [hd]; rfl, by rw [hd]; rfl⟩
  · intro a ha anc hanc
    have hin := hW item (List.getElem?_mem hx) a ha anc hanc
    have h1 : "Random Tool".data <:+: item.textContent.data := by
      have := trim_contained item.textContent
      rw [hr] at this
      exact this
    have h2 := infix_trim "Random Tool".data anc.textContent (by decide) (by decide)
      (by decide) (h1.trans hin)
    have hfree : ∀ t ∈ allTools, ¬ "Random Tool".data <:+: t.name.data := by decide
    rw [findTool_eq_none]
    intro t ht heq
    rw [heq] at h2
    exact hfree t ht h2

/-- Witness of C2 (amended): on `randomToolPage`, a click on the item "Random Tool". -/
theorem no_match_no_click_witness :
    dispatchEvent (onDOMContentLoaded randomToolPage) 1 .click =
      onDOMContentLoaded randomToolPage :=
  have h := no_match_no_click randomToolPage 1 (nestedLi "Random Tool" [0]) (by decide)
    (by decide)
  (h.2.1 (by unfold Document.Fresh; decide)
    (h.2.2.2 (by unfold Document.WellNested; decide) (by decide))).1

/-- C2 as stated fails: on `emptyItemPage` the inner item has the empty text, which matches
no entry, yet a click on it bubbles to the outer item "Merge PDF" and sets the navigation
target to `../pdf-tools/merge-pdf/index.html`. -/
theorem no_match_click_counterexample :
    emptyItemPage.Fresh ∧ emptyItemPage.WellNested ∧
    findTool allTools "" = none ∧
    (onDOMContentLoaded emptyItemPage).href = "index.html" ∧
    (dispatchEvent (onDOMContentLoaded emptyItemPage) 1 .click).href =
      "../pdf-tools/merge-pdf/index.html" ∧
    (dispatchEvent (onDOMContentLoaded emptyItemPage) 1 .click).href ≠
      (onDOMContentLoaded emptyItemPage).href := by
  unfold Document.Fresh Document.WellNested
  decide

/-! ## Hover -/

/-- C6: after the binder has run, every candidate element, matched or not, has one more
`mouseover` listener and one more `mouseout` listener than before, each added last and
closed over that element; an element without listeners before carries exactly one of each.
On a page without candidate elements the binder changes nothing. -/
theorem hover_listeners_once (d : Document) (x : Nat) (item : Element)
    (hx : d.items[x]? = some item) :
    (∃ item1, (onDOMContentLoaded d).items[x]? = some item1 ∧
      item1.listenersFor .mouseover = item.listenersFor .mouseover ++ [.hoverEnter x] ∧
      item1.listenersFor .mouseout = item.listenersFor .mouseout ++ [.hoverExit x] ∧
      (item.listeners = [] →
        item1.listenersFor .mouseover = [.hoverEnter x] ∧
        item1.listenersFor .mouseout = [.hoverExit x])) ∧
    (onDOMContentLoaded d).items.length = d.items.length ∧
    (∀ d0 : Document, d0.items = [] → onDOMContentLoaded d0 = d0) := by
  have hitem : (onDOMContentLoaded d).items[x]? = some (bindItem x item) := by
    rw [items_onDOMContentLoaded, hx]
    rfl
  have hb := listenersFor_bindItem x item
  refine ⟨⟨_, hitem, hb.2.1, hb.2.2, fun h0 => ?_⟩, ?_, ?_⟩
  · rw [hb.2.1, hb.2.2, listenersFor_nil item h0, listenersFor_nil item h0]
    exact ⟨rfl, rfl⟩
  · have : ∀ (l : List Element) (k : Nat), (forEach bindItem k l).length = l.length := by
      intro l
      induction l with
      | nil => intro k; rfl
      | cons a l ih => intro k; simp [forEach, ih]
    exact this _ _
  · intro d0 h0
    cases d0 with
    | mk items href assignments =>
      simp only at h0
      subst h0
      rfl

/-- Witness of C6: the page with the items "Home" and "Merge PDF". -/
theorem hover_listeners_once_witness :
    ∃ item1, (onDOMContentLoaded (page "index.html" ["Home", "Merge PDF"])).items[0]? =
        some item1 ∧
      item1.listenersFor .mouseover = [.hoverEnter 0] ∧
      item1.listenersFor .mouseout = [.hoverExit 0] :=
  match (hover_listeners_once (page "index.html" ["Home", "Merge PDF"]) 0 (li "Home")
    (by decide)).1 with
  | ⟨item1, h1, _, _, h4⟩ => ⟨item1, h1, (h4 rfl).1, (h4 rfl).2⟩

/-- C7 (amended): after the binder has run, hover-enter on a candidate element sets its
transform to `scale(1.05)` and its transition to `transform 0.2s ease, color 0.3s`, that is
a duration of 0.2s for the transform channel and of 0.3s for the color channel; hover-exit
sets its transform to `scale(1)`, also right after a hover-enter.  This holds when the
listeners of the element are invoked (whatever listeners it carried before) and when the
event is dispatched on a freshly parsed page and bubbles through the ancestors. -/
theorem hover_styles (d : Document) (x : Nat) (item : Element)
    (hx : d.items[x]? = some item) :
    (∃ it1, (invokeListeners (onDOMContentLoaded d) x .mouseover).items[x]? = some it1 ∧
      it1.style.transform = "scale(1.05)" ∧
      it1.style.transition = "transform 0.2s ease, color 0.3s" ∧
      transitionDuration it1.style.transition "transform" = some "0.2s" ∧
      transitionDuration it1.style.transition "color" = some "0.3s") ∧
    (∃ it2, (invokeListeners (onDOMContentLoaded d) x .mouseout).items[x]? = some it2 ∧
      it2.style.transform = "scale(1)") ∧
    (∃ it3, (invokeListeners (invokeListeners (onDOMContentLoaded d) x .mouseover) x
        .mouseout).items[x]? = some it3 ∧
      it3.style.transform = "scale(1)") ∧
    (d.Fresh →
      (∃ it1, (dispatchEvent (onDOMContentLoaded d) x .mouseover).items[x]? = some it1 ∧
        it1.style.transform = "scale(1.05)" ∧
        it1.style.transition = "transform 0.2s ease, color 0.3s" ∧
        transitionDuration it1.style.transition "transform" = some "0.2s" ∧
        transitionDuration it1.style.transition "color" = some "0.3s") ∧
      (∃ it2, (dispatchEvent (onDOMContentLoaded d) x .mouseout).items[x]? = some it2 ∧
        it2.style.transform = "scale(1)") ∧
      (∃ it3, (dispatchEvent (dispatchEvent (onDOMContentLoaded d) x .mouseover) x
          .mouseout).items[x]? = some it3 ∧
        it3.style.transform = "scale(1)")) := by
  have hitem : (onDOMContentLoaded d).items[x]? = some (bindItem x item) := by
    rw [items_onDOMContentLoaded, hx]
    rfl
  have hb := listenersFor_bindItem x item
  have hlt := lt_length_of_getElem? hitem
  refine ⟨?_, ?_, ?_, fun hF => ⟨?_, ?_, ?_⟩⟩
  · rw [invokeListeners_last _ x _ .mouseover _ _ hitem hb.2.1]
    obtain ⟨it, h1, h2, h3⟩ := call_hoverEnter (callAll (item.listenersFor .mouseover)
      (onDOMContentLoaded d)) x (by rw [(callAll_keeps _ _ x).1]; exact hlt)
    refine ⟨it, h1, h2, h3, ?_, ?_⟩ <;> rw [h3] <;> decide
  · rw [invokeListeners_last _ x _ .mouseout _ _ hitem hb.2.2]
    exact call_hoverExit _ x (by rw [(callAll_keeps _ _ x).1]; exact hlt)
  · have hk := invokeListeners_keeps (onDOMContentLoaded d) x .mouseover x
    obtain ⟨it1, h1, hl1, _⟩ := listeners_of_keeps hitem hk.2
    have hfor : it1.listenersFor .mouseout =
        item.listenersFor .mouseout ++ [.hoverExit x] := by
      rw [← hb.2.2]
      simp only [Element.listenersFor, hl1]
    rw [invokeListeners_last _ x _ .mouseout _ _ h1 hfor]
    exact call_hoverExit _ x (by rw [(callAll_keeps _ _ x).1, hk.1]; exact hlt)
  · rw [dispatchEvent_bind d hF x item .mouseover hx, List.flatMap_cons,
      (registeredAt_hover hx).1, callAll_append]
    obtain ⟨it, h1, h2, h3⟩ := callAll_hover_style
      (fun st => st.transform = "scale(1.05)" ∧
        st.transition = "transform 0.2s ease, color 0.3s") x
      (item.ancestors.flatMap (fun y => registeredAt d y .mouseover))
      (callAll [.hoverEnter x] (onDOMContentLoaded d))
      (call_hoverEnter (onDOMContentLoaded d) x hlt)
      (fun l hl d2 hP => by
        obtain ⟨a, _, hla⟩ := List.mem_flatMap.mp hl
        rcases registeredAt_form hla with ⟨h, _⟩ | ⟨_, rfl⟩ | ⟨h, _⟩
        · exact nomatch h
        · exact call_hoverEnter_style a x d2 hP
        · exact nomatch h)
    refine ⟨it, h1, h2, h3, ?_, ?_⟩ <;> rw [h3] <;> decide
  · rw [dispatchEvent_bind d hF x item .mouseout hx, List.flatMap_cons,
      (registeredAt_hover hx).2, callAll_append]
    exact callAll_hover_style (fun st => st.transform = "scale(1)") x
      (item.ancestors.flatMap (fun y => registeredAt d y .mouseout))
      (callAll [.hoverExit x] (onDOMContentLoaded d))
      (call_hoverExit (onDOMContentLoaded d) x hlt)
      (fun l hl d2 hP => by
        obtain ⟨a, _, hla⟩ := List.mem_flatMap.mp hl
        rcases registeredAt_form hla with ⟨h, _⟩ | ⟨h, _⟩ | ⟨_, rfl⟩
        · exact nomatch h
        · exact nomatch h
        · exact call_hoverExit_style a x d2 hP)
  · have hk := fun y => (dispatchEvent_keeps (onDOMContentLoaded d) x .mouseover y).2
    have hlen := (dispatchEvent_keeps (onDOMContentLoaded d) x .mouseover x).1
    rw [dispatchEvent_of_frame (onDOMContentLoaded d) _ x (bindItem x item) .mouseout hk
      hitem, ancestors_bindItem]
    simp only [listenersAt_bind d hF]
    rw [List.flatMap_cons, (registeredAt_hover hx).2, callAll_append]
    exact callAll_hover_style (fun st => st.transform = "scale(1)") x
      (item.ancestors.flatMap (fun y => registeredAt d y .mouseout)) _
      (call_hoverExit _ x (by rw [hlen]; exact hlt))
      (fun l hl d2 hP => by
        obtain ⟨a, _, hla⟩ := List.mem_flatMap.mp hl
        rcases registeredAt_form hla with ⟨h, _⟩ | ⟨h, _⟩ | ⟨_, rfl⟩
        · exact nomatch h
        · exact nomatch h
        · exact call_hoverExit_style a x d2 hP)

/-- Witness of C7: on `toolsPage`, hover-enter on the nested item "Merge PDF". -/
theorem hover_styles_witness :
    ∃ it1, (dispatchEvent (onDOMContentLoaded toolsPage) 1 .mouseover).items[1]? =
        some it1 ∧
      it1.style.transform = "scale(1.05)" ∧
      it1.style.transition = "transform 0.2s ease, color 0.3s" ∧
      transitionDuration it1.style.transition "transform" = some "0.2s" ∧
      transitionDuration it1.style.transition "color" = some "0.3s" :=
  ((hover_styles toolsPage 1 (nestedLi "Merge PDF" [0]) (by decide)).2.2.2
    (by unfold Document.Fresh; decide)).1

/-- C7 as stated fails: on the page with the single item "Merge PDF", the transition that
hover-enter sets gives the color channel a duration of 0.3s, not of 0.2s. -/
theorem hover_color_duration_counterexample :
    (dispatchEvent (onDOMContentLoaded (page "index.html" ["Merge PDF"])) 0
        .mouseover).items[0]?.map (fun it => it.style.transition) =
      some "transform 0.2s ease, color 0.3s" ∧
    (dispatchEvent (onDOMContentLoaded (page "index.html" ["Merge PDF"])) 0
        .mouseover).items[0]?.map (fun it => transitionDuration it.style.transition "color") ≠
      some (some "0.2s") := by
  decide

/-! ## Running the binder twice -/

/-- C9 (amended): the binder is not idempotent.  After a second run on the same page, an
element that had no listeners carries two `mouseover` and two `mouseout` listeners, and a
matched element carries two click listeners.  On a freshly parsed page one click on a
matched element then assigns the entry's path to `window.location.href` twice for the
element itself and, as the click bubbles, twice more for every matched candidate element
among its ancestors, every time the same path; with no matched ancestor that is exactly
twice. -/
theorem second_run_duplicates (d : Document) (x : Nat) (item : Element)
    (hx : d.items[x]? = some item) (h0 : item.listeners = []) :
    (∃ item2, (onDOMContentLoaded (onDOMContentLoaded d)).items[x]? = some item2 ∧
      item2.listenersFor .mouseover = [.hoverEnter x, .hoverEnter x] ∧
      item2.listenersFor .mouseout = [.hoverExit x, .hoverExit x] ∧
      (∀ e ∈ allTools, trim item.textContent = e.name →
        item2.listenersFor .click = [.navigate e.path, .navigate e.path])) ∧
    (d.Fresh → d.WellNested → ∀ e ∈ allTools, trim item.textContent = e.name →
      (dispatchEvent (onDOMContentLoaded (onDOMContentLoaded d)) x .click).assignments =
        d.assignments ++ List.replicate (2 * (1 + matchedAncestors d item)) e.path ∧
      (dispatchEvent (onDOMContentLoaded (onDOMContentLoaded d)) x .click).href = e.path ∧
      (d.NoMatchedAncestor item →
        (dispatchEvent (onDOMContentLoaded (onDOMContentLoaded d)) x .click).assignments =
          d.assignments ++ [e.path, e.path])) ∧
    onDOMContentLoaded (onDOMContentLoaded d) ≠ onDOMContentLoaded d := by
  have hitem1 : (onDOMContentLoaded d).items[x]? = some (bindItem x item) := by
    rw [items_onDOMContentLoaded, hx]
    rfl
  have hitem2 : (onDOMContentLoaded (onDOMContentLoaded d)).items[x]? =
      some (bindItem x (bindItem x item)) := by
    rw [items_onDOMContentLoaded, hitem1]
    rfl
  have hb1 := listenersFor_bindItem x item
  have hb2 := listenersFor_bindItem x (bindItem x item)
  have hnil := listenersFor_nil item h0
  rw [hnil, List.nil_append] at hb1
  rw [hnil, List.nil_append] at hb1
  rw [hnil, List.nil_append] at hb1
  rw [hb1.1, hb1.2.1, hb1.2.2, textContent_bindItem] at hb2
  have hclick : ∀ e ∈ allTools, trim item.textContent = e.name →
      (bindItem x (bindItem x item)).listenersFor .click =
        [.navigate e.path, .navigate e.path] := by
    intro e he ht
    rw [hb2.1, findTool_of_mem allTools_names_nodup he ht]
    rfl
  refine ⟨⟨_, hitem2, hb2.2.1, hb2.2.2, hclick⟩, ?_, ?_⟩
  · intro hF hW e he ht
    have hls : (x :: item.ancestors).flatMap
        (fun y => registeredAt d y .click ++ registeredAt d y .click) =
        (List.replicate (2 * (1 + matchedAncestors d item)) e.path).map .navigate := by
      rw [List.flatMap_cons, registeredAt_click_of_matched hx he ht,
        flatMap_twice_navigate (fun y => registeredAt d y .click) e.path item.ancestors
          (registeredAt_click_nested hW hx he ht)]
      have hrep : ∀ (n : Nat) (a : Listener),
          a :: a :: List.replicate (2 * n) a = List.replicate (2 * (1 + n)) a := by
        intro n a
        rw [show 2 * (1 + n) = 2 * n + 1 + 1 by omega]
        rfl
      simp only [matchedAncestors, List.map_replicate]
      exact hrep _ _
    have hd := dispatchEvent_bind_bind d hF x item .click hx
    rw [hls] at hd
    have hass : (dispatchEvent (onDOMContentLoaded (onDOMContentLoaded d)) x
        .click).assignments =
        d.assignments ++ List.replicate (2 * (1 + matchedAncestors d item)) e.path := by
      rw [hd, callAll_navigate_assignments]
      rfl
    refine ⟨hass, ?_, fun hA => ?_⟩
    · rw [hd]
      refine callAll_navigate_href _ e.path _ ?_ ?_
      · simp [Nat.mul_add, List.replicate_succ]
      · intro l hl
        obtain ⟨p, hp, rfl⟩ := List.mem_map.mp hl
        rw [(List.mem_replicate.mp hp).2]
    · have hzero : matchedAncestors d item = 0 := by
        unfold matchedAncestors
        rw [List.length_eq_zero, List.filter_eq_nil_iff]
        intro a ha
        simp [registeredAt_click_of_unmatched (hA a ha)]
      rw [hass, hzero]
      rfl
  · intro heq
    have h1 : (bindItem x (bindItem x item)).listenersFor .mouseover =
        (bindItem x item).listenersFor .mouseover := by
      have : some (bindItem x (bindItem x item)) = some (bindItem x item) := by
        rw [← hitem2, ← hitem1, heq]
      rw [Option.some.inj this]
    rw [hb2.2.1, hb1.2.1] at h1
    exact nomatch h1

/-- Witness of C9 (amended): on `mergeInMergePage`, whose two items both match "Merge PDF",
one click on the inner item after two runs of the binder. -/
theorem second_run_duplicates_witness :
    (dispatchEvent (onDOMContentLoaded (onDOMContentLoaded mergeInMergePage)) 1
        .click).assignments =
      mergeInMergePage.assignments ++
        List.replicate
          (2 * (1 + matchedAncestors mergeInMergePage (nestedLi "Merge PDF" [0])))
          "../pdf-tools/merge-pdf/index.html" ∧
    onDOMContentLoaded (onDOMContentLoaded mergeInMergePage) ≠
      onDOMContentLoaded mergeInMergePage :=
  have h := second_run_duplicates mergeInMergePage 1 (nestedLi "Merge PDF" [0])
    (by decide) rfl
  ⟨(h.2.1 (by unfold Document.Fresh; decide) (by unfold Document.WellNested; decide)
    (Tool.mk "Merge PDF" "../pdf-tools/merge-pdf/index.html") (by decide) (by decide)).1,
    h.2.2⟩

/-- C9 as stated fails: on `mergeInMergePage` both items match "Merge PDF"; after two runs
of the binder one click on the inner item assigns the path four times, not twice. -/
theorem second_run_click_counterexample :
    mergeInMergePage.Fresh ∧ mergeInMergePage.WellNested ∧
    findTool allTools "Merge PDF" =
      some (Tool.mk "Merge PDF" "../pdf-tools/merge-pdf/index.html") ∧
    (dispatchEvent (onDOMContentLoaded (onDOMContentLoaded mergeInMergePage)) 1
        .click).assignments =
      [ "../pdf-tools/merge-pdf/index.html", "../pdf-tools/merge-pdf/index.html",
        "../pdf-tools/merge-pdf/index.html", "../pdf-tools/merge-pdf/index.html" ] ∧
    (dispatchEvent (onDOMContentLoaded (onDOMContentLoaded mergeInMergePage)) 1
        .click).assignments ≠
      [ "../pdf-tools/merge-pdf/index.html", "../pdf-tools/merge-pdf/index.html" ] := by
  unfold Document.Fresh Document.WellNested
  decide

/-! ## Frame -/

/-- C10 (amended): after one run of the binder on a freshly parsed page, an event of any
type dispatched to a candidate element `x` leaves every element `y` that is neither `x` nor
one of its ancestors as it was (text, style and listeners), and changes no element's
listeners; the listeners of the ancestors of `x` run as the event bubbles.  A hover event
leaves `window.location.href` and the trace of its assignments as they were, and a click
leaves every element as it was. -/
theorem no_cross_element_interference (d : Document) (x y : Nat) (item : Element)
    (type : EventType) (hx : d.items[x]? = some item) (hF : d.Fresh)
    (hy : y ∉ x :: item.ancestors) :
    (dispatchEvent (onDOMContentLoaded d) x type).items[y]? =
      (onDOMContentLoaded d).items[y]? ∧
    (∀ z : Nat, (dispatchEvent (onDOMContentLoaded d) x type).items[z]?.map Element.listeners =
      (onDOMContentLoaded d).items[z]?.map Element.listeners) ∧
    (type ≠ .click →
      (dispatchEvent (onDOMContentLoaded d) x type).href = (onDOMContentLoaded d).href ∧
      (dispatchEvent (onDOMContentLoaded d) x type).assignments =
        (onDOMContentLoaded d).assignments) ∧
    (type = .click →
      (dispatchEvent (onDOMContentLoaded d) x type).items = (onDOMContentLoaded d).items) := by
  have hd := dispatchEvent_bind d hF x item type hx
  refine ⟨?_, fun z => listeners_of_frame (dispatchEvent_keeps _ x type z).2, ?_, ?_⟩
  · rw [hd]
    refine callAll_getElem?_ne _ _ y ?_
    intro l hl
    obtain ⟨a, ha, hla⟩ := List.mem_flatMap.mp hl
    refine ⟨a, fun hya => hy (hya ▸ ha), ?_⟩
    rcases registeredAt_form hla with ⟨_, p, hp⟩ | ⟨_, h⟩ | ⟨_, h⟩
    · exact Or.inr (Or.inr ⟨p, hp⟩)
    · exact Or.inl h
    · exact Or.inr (Or.inl h)
  · intro hne
    rw [hd]
    refine callAll_of_hover _ _ ?_
    intro l hl
    obtain ⟨a, _, hla⟩ := List.mem_flatMap.mp hl
    rcases registeredAt_form hla with ⟨h, _⟩ | ⟨_, h⟩ | ⟨_, h⟩
    · exact absurd h hne
    · exact ⟨a, Or.inl h⟩
    · exact ⟨a, Or.inr h⟩
  · intro hc
    rw [hd]
    refine callAll_of_navigate _ _ ?_
    intro l hl
    obtain ⟨a, _, hla⟩ := List.mem_flatMap.mp hl
    rcases registeredAt_form hla with ⟨_, h⟩ | ⟨h, _⟩ | ⟨h, _⟩
    · exact h
    · rw [hc] at h
      exact nomatch h
    · rw [hc] at h
      exact nomatch h

/-- Witness of C10 (amended): on `toolsPage`, hover-enter on the nested item "Merge PDF"
leaves its sibling " Compress PDF " as it was. -/
theorem no_cross_element_interference_witness :
    (dispatchEvent (onDOMContentLoaded toolsPage) 1 .mouseover).items[2]? =
      (onDOMContentLoaded toolsPage).items[2]? :=
  (no_cross_element_interference toolsPage 1 2 (nestedLi "Merge PDF" [0]) .mouseover
    (by decide) (by unfold Document.Fresh; decide) (by decide)).1

/-- C10 as stated fails: on `toolsPage`, hover-enter on the nested item "Merge PDF" (position
1) bubbles to the outer item (position 0) and sets its transform and transition. -/
theorem cross_element_counterexample :
    toolsPage.Fresh ∧ toolsPage.WellNested ∧
    (onDOMContentLoaded toolsPage).items[0]?.map (fun it => it.style.transform) = some "" ∧
    (dispatchEvent (onDOMContentLoaded toolsPage) 1 .mouseover).items[0]?.map
        (fun it => it.style.transform) = some "scale(1.05)" ∧
    (dispatchEvent (onDOMContentLoaded toolsPage) 1 .mouseover).items[0]? ≠
      (onDOMContentLoaded toolsPage).items[0]? := by
  unfold Document.Fresh Document.WellNested
  decide

end Divipdf
